import Mathlib

/-!
Verification of the worker-local lazy singleton cache (`SpacyMagic`) and the
sentence-splitting user function (`split_sentences_impl`) from the
streaming-lab-notebook repository (`sentiment.ipynb`).

The Python source being modelled:

  class SpacyMagic(object):
      _spacys = {}
      @classmethod
      def get(cls, lang):
          if lang not in cls._spacys:
              (the spacy module is imported here)
              cls._spacys[lang] = spacy.load(lang)
          return cls._spacys[lang]

  def split_sentences_impl(s):
      english = SpacyMagic.get("en")
      return [str(sentence) for sentence in english(s).sents]

Modelling choices:
- the process-wide dict `_spacys` is an association list with Python dict
  semantics (`lookupKey` for `lang in d` / `d[lang]`, `dictInsert` for
  `d[lang] = v`, overwriting a present key and appending an absent one);
- the external construction routine `spacy.load` is a caller-supplied,
  possibly stateful and possibly failing function
  `load : σ → α → (Except ε β) × σ`; its state `σ` (e.g. an invocation
  counter) is threaded through so that "the construction routine was
  invoked n times" is visible in the final loader state;
- a raised Python exception is the `Except.error` result of `get`; the
  process state returned beside it is the state at the moment of the raise
  (no dict assignment has happened on that path, as in the source).
-/

namespace StreamingLab

/-! Python dict semantics over association lists. -/

/-- Lookup in a Python dict: `d[k]` / the test `k in d`, by key equality. -/
def lookupKey [DecidableEq α] : List (α × β) → α → Option β
  | [], _ => none
  | (k, v) :: rest, k2 => if k = k2 then some v else lookupKey rest k2

/-- Python dict assignment `d[k] = v`: overwrite the entry when `k` is
present, append a fresh entry otherwise. -/
def dictInsert [DecidableEq α] : List (α × β) → α → β → List (α × β)
  | [], k, v => [(k, v)]
  | (k2, w) :: rest, k, v =>
      if k2 = k then (k, v) :: rest else (k2, w) :: dictInsert rest k v

/-- Keys of a Python dict. -/
def dictKeys (d : List (α × β)) : List α := d.map Prod.fst

/-- Process state: the loader state `loader` (the mutable state of the
external construction routine, e.g. a counter in the spec scenarios) and the
class attribute `SpacyMagic._spacys`. -/
structure ProcState (σ α β : Type) where
  loader : σ
  spacys : List (α × β)
deriving Repr, DecidableEq

/-- Embedding of `SpacyMagic.get(cls, lang)`.  The branch on
`lookupKey st.spacys lang` is the source's `if lang not in cls._spacys`.
On a miss the routine `load` (the source's `spacy.load(lang)`) is invoked
once with `lang` itself; a failure propagates with no dict assignment;
a success is stored with `cls._spacys[lang] = v`.  The source then returns
`cls._spacys[lang]`, which is the freshly stored `v` on the miss path
(lemma `lookupKey_dictInsert_self`) and the found entry on the hit path. -/
def SpacyMagic.get [DecidableEq α] (load : σ → α → (Except ε β) × σ)
    (st : ProcState σ α β) (lang : α) : (Except ε β) × ProcState σ α β :=
  match lookupKey st.spacys lang with
  | none =>
      match load st.loader lang with
      | (.error e, s) => (.error e, ⟨s, st.spacys⟩)
      | (.ok v, s) => (.ok v, ⟨s, dictInsert st.spacys lang v⟩)
  | some v => (.ok v, st)

/-- Final process state after a sequence of `SpacyMagic.get` calls. -/
def runGets [DecidableEq α] (load : σ → α → (Except ε β) × σ) :
    ProcState σ α β → List α → ProcState σ α β
  | st, [] => st
  | st, k :: ks => runGets load (SpacyMagic.get load st k).2 ks

/-- Results of a sequence of `SpacyMagic.get` calls, each paired with the
key it was called on. -/
def traceGets [DecidableEq α] (load : σ → α → (Except ε β) × σ) :
    ProcState σ α β → List α → List (α × Except ε β)
  | _, [] => []
  | st, k :: ks =>
      (k, (SpacyMagic.get load st k).1) ::
        traceGets load (SpacyMagic.get load st k).2 ks

/-- Embedding of `split_sentences_impl(s)`: obtain the model via
`SpacyMagic.get` at the fixed key `"en"`, then build
`[str(sentence) for sentence in english(s).sents]`, where the opaque
library calls `english( ).sents` and `str( )` are the parameters `sents`
and `strOf`.  An exception from `get` propagates. -/
def split_sentences_impl (load : σ → String → (Except ε β) × σ)
    (sents : β → String → List γ) (strOf : γ → String)
    (st : ProcState σ String β) (s : String) :
    (Except ε (List String)) × ProcState σ String β :=
  match SpacyMagic.get load st "en" with
  | (.error e, st2) => (.error e, st2)
  | (.ok english, st2) => (.ok ((sents english s).map strOf), st2)

/-- Final process state after a sequence of `split_sentences_impl` calls. -/
def runSplits (load : σ → String → (Except ε β) × σ)
    (sents : β → String → List γ) (strOf : γ → String) :
    ProcState σ String β → List String → ProcState σ String β
  | st, [] => st
  | st, s :: ss =>
      runSplits load sents strOf (split_sentences_impl load sents strOf st s).2 ss

/-! Basic dict lemmas. -/

theorem lookupKey_dictInsert_self [DecidableEq α] (d : List (α × β)) (k : α) (v : β) :
    lookupKey (dictInsert d k v) k = some v := by
  induction d with
  | nil => simp [dictInsert, lookupKey]
  | cons p rest ih =>
      obtain ⟨k2, w⟩ := p
      by_cases h : k2 = k
      · simp [dictInsert, h, lookupKey]
      · simp [dictInsert, h, lookupKey, ih]

theorem lookupKey_dictInsert_other [DecidableEq α] (d : List (α × β)) {k k2 : α}
    (v : β) (h : k ≠ k2) : lookupKey (dictInsert d k v) k2 = lookupKey d k2 := by
  induction d with
  | nil => simp [dictInsert, lookupKey, h]
  | cons p rest ih =>
      obtain ⟨k3, w⟩ := p
      by_cases h3 : k3 = k
      · subst h3
        simp [dictInsert, lookupKey, h]
      · simp [dictInsert, h3, lookupKey, ih]

theorem mem_dictKeys_iff_lookupKey [DecidableEq α] (d : List (α × β)) (k : α) :
    k ∈ dictKeys d ↔ (lookupKey d k).isSome := by
  induction d with
  | nil => simp [dictKeys, lookupKey]
  | cons p rest ih =>
      obtain ⟨k2, w⟩ := p
      by_cases h : k2 = k
      · subst h
        simp [dictKeys, lookupKey]
      · rw [show dictKeys ((k2, w) :: rest) = k2 :: dictKeys rest from rfl,
          List.mem_cons,
          show lookupKey ((k2, w) :: rest) k = lookupKey rest k by simp [lookupKey, h]]
        simp [Ne.symm h, ih]

theorem mem_dictKeys_dictInsert [DecidableEq α] (d : List (α × β)) (k x : α) (v : β) :
    x ∈ dictKeys (dictInsert d k v) ↔ x = k ∨ x ∈ dictKeys d := by
  induction d with
  | nil => simp [dictInsert, dictKeys]
  | cons p rest ih =>
      obtain ⟨k2, w⟩ := p
      by_cases h : k2 = k
      · subst h
        simp [dictInsert, dictKeys]
      · simp [dictInsert, h, dictKeys] at ih ⊢
        tauto

/-! Behaviour of a single `SpacyMagic.get` call. -/

theorem get_hit [DecidableEq α] (load : σ → α → (Except ε β) × σ)
    (st : ProcState σ α β) {k : α} {v : β} (h : lookupKey st.spacys k = some v) :
    SpacyMagic.get load st k = (.ok v, st) := by
  simp [SpacyMagic.get, h]

theorem get_miss_ok [DecidableEq α] (load : σ → α → (Except ε β) × σ)
    (st : ProcState σ α β) {k : α} {v : β} {s : σ}
    (h : lookupKey st.spacys k = none) (hl : load st.loader k = (.ok v, s)) :
    SpacyMagic.get load st k = (.ok v, ⟨s, dictInsert st.spacys k v⟩) := by
  simp [SpacyMagic.get, h, hl]

theorem get_miss_error [DecidableEq α] (load : σ → α → (Except ε β) × σ)
    (st : ProcState σ α β) {k : α} {e : ε} {s : σ}
    (h : lookupKey st.spacys k = none) (hl : load st.loader k = (.error e, s)) :
    SpacyMagic.get load st k = (.error e, ⟨s, st.spacys⟩) := by
  simp [SpacyMagic.get, h, hl]

/-- Whenever `get` returns `ok v` for key `k`, the dict afterwards maps `k`
to `v`. -/
theorem get_ok_lookupKey [DecidableEq α] (load : σ → α → (Except ε β) × σ)
    (st : ProcState σ α β) {k : α} {v : β} {st2 : ProcState σ α β}
    (h : SpacyMagic.get load st k = (.ok v, st2)) :
    lookupKey st2.spacys k = some v := by
  unfold SpacyMagic.get at h
  cases hlk : lookupKey st.spacys k with
  | none =>
      rw [hlk] at h
      cases hl : load st.loader k with
      | mk r s =>
          cases r with
          | error e => rw [hl] at h; simp at h
          | ok w =>
              rw [hl] at h
              simp at h
              obtain ⟨h1, h2⟩ := h
              subst h1
              rw [← h2]
              exact lookupKey_dictInsert_self st.spacys k w
  | some w =>
      rw [hlk] at h
      simp at h
      obtain ⟨h1, h2⟩ := h
      subst h1
      rw [← h2]
      exact hlk

/-- A `get` call on any key leaves every existing cache entry in place. -/
theorem get_preserves_entry [DecidableEq α] (load : σ → α → (Except ε β) × σ)
    (st : ProcState σ α β) {k : α} {v : β} (k2 : α)
    (h : lookupKey st.spacys k = some v) :
    lookupKey (SpacyMagic.get load st k2).2.spacys k = some v := by
  cases hlk : lookupKey st.spacys k2 with
  | none =>
      cases hl : load st.loader k2 with
      | mk r s =>
          cases r with
          | error e => rw [get_miss_error load st hlk hl]; exact h
          | ok w =>
              rw [get_miss_ok load st hlk hl]
              have hne : k2 ≠ k := by
                intro hk
                subst hk
                rw [h] at hlk
                exact Option.noConfusion hlk
              simpa [lookupKey_dictInsert_other st.spacys w hne] using h
  | some w => rw [get_hit load st hlk]; exact h

/-- A run of `get` calls leaves every existing cache entry in place. -/
theorem runGets_preserves_entry [DecidableEq α] (load : σ → α → (Except ε β) × σ)
    (st : ProcState σ α β) {k : α} {v : β} (ks : List α)
    (h : lookupKey st.spacys k = some v) :
    lookupKey (runGets load st ks).spacys k = some v := by
  induction ks generalizing st with
  | nil => exact h
  | cons k2 rest ih =>
      rw [runGets]
      exact ih _ (get_preserves_entry load st k2 h)

/-- A fresh miss stores the loaded value as the single dict entry. -/
theorem get_fresh_ok [DecidableEq α] (load : σ → α → (Except ε β) × σ)
    (s0 : σ) {k : α} {v : β} {s1 : σ} (h : load s0 k = (.ok v, s1)) :
    SpacyMagic.get load ⟨s0, []⟩ k = (.ok v, ⟨s1, [(k, v)]⟩) := by
  simpa [dictInsert] using get_miss_ok load ⟨s0, []⟩ rfl h

theorem lookupKey_single_self [DecidableEq α] (k : α) (v : β) :
    lookupKey [(k, v)] k = some v := by
  simp [lookupKey]

/-- A `get` call for key `k2` leaves the lookup result of any other key
`k1` untouched, whether `k1` is cached or not. -/
theorem get_frame [DecidableEq α] (load : σ → α → (Except ε β) × σ)
    (st : ProcState σ α β) {k1 k2 : α} (hne : k2 ≠ k1) :
    lookupKey (SpacyMagic.get load st k2).2.spacys k1 = lookupKey st.spacys k1 := by
  cases hlk : lookupKey st.spacys k2 with
  | none =>
      cases hl : load st.loader k2 with
      | mk r s =>
          cases r with
          | error e => rw [get_miss_error load st hlk hl]
          | ok w =>
              rw [get_miss_ok load st hlk hl]
              exact lookupKey_dictInsert_other st.spacys w hne
  | some w => rw [get_hit load st hlk]

/-! Concrete construction routines for the specification scenarios. -/

/-- Counting construction routine from the spec scenarios: increments a
counter and returns a marker object tagged with the key and the invocation
index. -/
def countLoad (n : Nat) (lang : String) : (Except Unit (String × Nat)) × Nat :=
  (.ok (lang, n), n + 1)

/-- Construction routine that counts invocations, fails on the first one
and succeeds afterwards. -/
def flakyLoad (n : Nat) (lang : String) : (Except Unit (String × Nat)) × Nat :=
  if n = 0 then (.error (), n + 1) else (.ok (lang, n), n + 1)

/-! Claim theorems for the sequential behaviour of `SpacyMagic.get`. -/

/-- C1: in a fresh process the first `get k` invokes the construction
routine exactly once (the loader state afterwards is the state `s1` left
by that single invocation), and the second and third `get k` return the
identical instance with the process state — dict and loader state —
completely unchanged, so the routine is never invoked again. -/
theorem C1_first_get_loads_once [DecidableEq α] (load : σ → α → (Except ε β) × σ)
    (s0 : σ) (k : α) {v : β} {s1 : σ} (h : load s0 k = (.ok v, s1)) :
    traceGets load ⟨s0, []⟩ [k, k, k] = [(k, .ok v), (k, .ok v), (k, .ok v)] ∧
    runGets load ⟨s0, []⟩ [k, k, k] = ⟨s1, [(k, v)]⟩ := by
  have g1 := get_fresh_ok load s0 h
  have g2 : SpacyMagic.get load ⟨s1, [(k, v)]⟩ k = (.ok v, ⟨s1, [(k, v)]⟩) :=
    get_hit load _ (lookupKey_single_self k v)
  exact ⟨by simp [traceGets, g1, g2], by simp [runGets, g1, g2]⟩

/-- Witness for C1: `get "en"` three times with the counting routine
leaves the counter at 1 and all three calls return the same marker. -/
theorem C1_witness :
    traceGets countLoad ⟨0, []⟩ ["en", "en", "en"] =
      [("en", .ok ("en", 0)), ("en", .ok ("en", 0)), ("en", .ok ("en", 0))] ∧
    runGets countLoad ⟨0, []⟩ ["en", "en", "en"] = ⟨1, [("en", ("en", 0))]⟩ :=
  C1_first_get_loads_once countLoad 0 "en" rfl

/-- C2: when the construction routine fails for an uncached key, `get`
propagates the failure and the dict is exactly what it was before the
call; a subsequent `get` for the same key invokes the routine again and,
if it now succeeds, stores and returns the new instance. -/
theorem C2_failure_propagates_and_retries [DecidableEq α]
    (load : σ → α → (Except ε β) × σ) (st : ProcState σ α β) (k : α)
    {e : ε} {s1 : σ}
    (h0 : lookupKey st.spacys k = none) (h1 : load st.loader k = (.error e, s1)) :
    SpacyMagic.get load st k = (.error e, ⟨s1, st.spacys⟩) ∧
    (∀ v s2, load s1 k = (.ok v, s2) →
      SpacyMagic.get load ⟨s1, st.spacys⟩ k =
        (.ok v, ⟨s2, dictInsert st.spacys k v⟩)) := by
  refine ⟨get_miss_error load st h0 h1, fun v s2 h2 => ?_⟩
  exact get_miss_ok load ⟨s1, st.spacys⟩ h0 h2

/-- Witness for C2: the flaky routine fails once (failure propagates, dict
stays empty) and the retry constructs and caches the instance. -/
theorem C2_witness :
    SpacyMagic.get flakyLoad ⟨0, []⟩ "en" = (.error (), ⟨1, []⟩) ∧
    SpacyMagic.get flakyLoad ⟨1, []⟩ "en" =
      (.ok ("en", 1), ⟨2, [("en", ("en", 1))]⟩) := by
  have h := C2_failure_propagates_and_retries flakyLoad ⟨0, []⟩ "en" rfl rfl
  exact ⟨h.1, h.2 ("en", 1) 2 rfl⟩

/-- C4: for distinct keys the two `get` calls construct independently,
each by applying the routine to its own key; the loader state records two
invocations, both entries are cached, the entry for the first key is
unchanged by the second call, and in general a `get` for one key leaves
the lookup result of the other key untouched. -/
theorem C4_distinct_keys_independent [DecidableEq α]
    (load : σ → α → (Except ε β) × σ) (s0 : σ) {k1 k2 : α} {v1 v2 : β} {s1 s2 : σ}
    (hne : k1 ≠ k2) (h1 : load s0 k1 = (.ok v1, s1)) (h2 : load s1 k2 = (.ok v2, s2)) :
    traceGets load ⟨s0, []⟩ [k1, k2] = [(k1, .ok v1), (k2, .ok v2)] ∧
    runGets load ⟨s0, []⟩ [k1, k2] = ⟨s2, [(k1, v1), (k2, v2)]⟩ ∧
    lookupKey (runGets load ⟨s0, []⟩ [k1, k2]).spacys k1 = some v1 ∧
    (∀ st : ProcState σ α β,
      lookupKey (SpacyMagic.get load st k2).2.spacys k1 = lookupKey st.spacys k1) := by
  have g1 := get_fresh_ok load s0 h1
  have hlk : lookupKey [(k1, v1)] k2 = none := by simp [lookupKey, hne]
  have g2 : SpacyMagic.get load ⟨s1, [(k1, v1)]⟩ k2 =
      (.ok v2, ⟨s2, [(k1, v1), (k2, v2)]⟩) := by
    simpa [dictInsert, hne] using get_miss_ok load ⟨s1, [(k1, v1)]⟩ hlk h2
  refine ⟨by simp [traceGets, g1, g2], by simp [runGets, g1, g2], ?_, ?_⟩
  · simp [runGets, g1, g2, lookupKey]
  · intro st
    exact get_frame load st (Ne.symm hne)

/-- Witness for C4: `get "en"` then `get "fr"` with the counting routine
leaves the counter at 2 and the two cached markers, tagged with their own
keys, are distinct. -/
theorem C4_witness :
    traceGets countLoad ⟨0, []⟩ ["en", "fr"] =
      [("en", .ok ("en", 0)), ("fr", .ok ("fr", 1))] ∧
    runGets countLoad ⟨0, []⟩ ["en", "fr"] =
      ⟨2, [("en", ("en", 0)), ("fr", ("fr", 1))]⟩ ∧
    (("en", 0) : String × Nat) ≠ ("fr", 1) := by
  have h := C4_distinct_keys_independent countLoad 0
    (show ("en" : String) ≠ "fr" by decide) rfl rfl
  exact ⟨h.1, h.2.1, by decide⟩

/-- C5: on a miss, `get` constructs by applying the caller-supplied
routine to the key itself, stores the result under that key (the lookup
afterwards finds it) and returns it; on a hit, it returns the stored entry
with the whole state unchanged, without invoking the routine. -/
theorem C5_get_behaviour [DecidableEq α] (load : σ → α → (Except ε β) × σ)
    (st : ProcState σ α β) (k : α) :
    (∀ v s1, lookupKey st.spacys k = none → load st.loader k = (.ok v, s1) →
      SpacyMagic.get load st k = (.ok v, ⟨s1, dictInsert st.spacys k v⟩) ∧
      lookupKey (SpacyMagic.get load st k).2.spacys k = some v) ∧
    (∀ v, lookupKey st.spacys k = some v →
      SpacyMagic.get load st k = (.ok v, st)) := by
  constructor
  · intro v s1 h0 h1
    refine ⟨get_miss_ok load st h0 h1, ?_⟩
    rw [get_miss_ok load st h0 h1]
    exact lookupKey_dictInsert_self st.spacys k v
  · intro v h
    exact get_hit load st h

/-- Witness for C5: both branches of the contract at concrete inputs. -/
theorem C5_witness :
    SpacyMagic.get countLoad ⟨0, []⟩ "en" =
      (.ok ("en", 0), ⟨1, [("en", ("en", 0))]⟩) ∧
    SpacyMagic.get countLoad ⟨1, [("en", ("en", 0))]⟩ "en" =
      (.ok ("en", 0), ⟨1, [("en", ("en", 0))]⟩) := by
  have h1 := C5_get_behaviour countLoad ⟨0, []⟩ "en"
  have h2 := C5_get_behaviour countLoad ⟨1, [("en", ("en", 0))]⟩ "en"
  exact ⟨by simpa [dictInsert] using (h1.1 ("en", 0) 1 rfl rfl).1,
    h2.2 ("en", 0) (by simp [lookupKey])⟩

/-- C6: once `get k` has succeeded, the entry for `k` survives any further
sequence of `get` calls unchanged, and a later `get k` returns the same
stored instance with the state unchanged — cached is terminal. -/
theorem C6_cached_is_terminal [DecidableEq α] (load : σ → α → (Except ε β) × σ)
    (st : ProcState σ α β) (k : α) {v : β} {st1 : ProcState σ α β}
    (h : SpacyMagic.get load st k = (.ok v, st1)) (ks : List α) :
    lookupKey (runGets load st1 ks).spacys k = some v ∧
    SpacyMagic.get load (runGets load st1 ks) k = (.ok v, runGets load st1 ks) := by
  have h1 : lookupKey st1.spacys k = some v := get_ok_lookupKey load st h
  have h2 := runGets_preserves_entry load st1 ks h1
  exact ⟨h2, get_hit load _ h2⟩

/-- Witness for C6: after caching `"en"`, later calls for `"fr"` and
`"en"` leave the `"en"` entry intact and a final `get "en"` hits it. -/
theorem C6_witness :
    lookupKey (runGets countLoad ⟨1, [("en", ("en", 0))]⟩ ["fr", "en"]).spacys "en" =
      some ("en", 0) ∧
    SpacyMagic.get countLoad (runGets countLoad ⟨1, [("en", ("en", 0))]⟩ ["fr", "en"]) "en" =
      (.ok ("en", 0), runGets countLoad ⟨1, [("en", ("en", 0))]⟩ ["fr", "en"]) :=
  C6_cached_is_terminal countLoad ⟨0, []⟩ "en" rfl ["fr", "en"]

/-- C8: on a hit `get` is idempotent: it returns the stored instance with
the entire state — dict mapping and loader state — exactly unchanged, so
`get k` twice equals `get k` once in both result and final state. -/
theorem C8_get_idempotent_on_hit [DecidableEq α] (load : σ → α → (Except ε β) × σ)
    (st : ProcState σ α β) (k : α) {v : β} (h : lookupKey st.spacys k = some v) :
    SpacyMagic.get load st k = (.ok v, st) ∧
    SpacyMagic.get load (SpacyMagic.get load st k).2 k = SpacyMagic.get load st k := by
  have h1 := get_hit load st h
  refine ⟨h1, ?_⟩
  rw [h1]
  exact h1

/-- Witness for C8 at a concrete cached state. -/
theorem C8_witness :
    SpacyMagic.get countLoad ⟨1, [("en", ("en", 0))]⟩ "en" =
      (.ok ("en", 0), ⟨1, [("en", ("en", 0))]⟩) ∧
    SpacyMagic.get countLoad
        (SpacyMagic.get countLoad ⟨1, [("en", ("en", 0))]⟩ "en").2 "en" =
      SpacyMagic.get countLoad ⟨1, [("en", ("en", 0))]⟩ "en" :=
  C8_get_idempotent_on_hit countLoad ⟨1, [("en", ("en", 0))]⟩ "en"
    (by simp [lookupKey])

/-- C9: lookup is by key equality: for equal keys `k1 = k2`, `get k1` then
`get k2` from a fresh process performs exactly one construction and both
calls return the same cached instance. -/
theorem C9_lookup_by_key_equality [DecidableEq α] (load : σ → α → (Except ε β) × σ)
    (s0 : σ) {k1 k2 : α} {v : β} {s1 : σ}
    (heq : k1 = k2) (h : load s0 k1 = (.ok v, s1)) :
    traceGets load ⟨s0, []⟩ [k1, k2] = [(k1, .ok v), (k2, .ok v)] ∧
    runGets load ⟨s0, []⟩ [k1, k2] = ⟨s1, [(k1, v)]⟩ := by
  subst heq
  have g1 := get_fresh_ok load s0 h
  have g2 : SpacyMagic.get load ⟨s1, [(k1, v)]⟩ k1 = (.ok v, ⟨s1, [(k1, v)]⟩) :=
    get_hit load _ (lookupKey_single_self k1 v)
  exact ⟨by simp [traceGets, g1, g2], by simp [runGets, g1, g2]⟩

/-- Witness for C9 with two equal string keys. -/
theorem C9_witness :
    traceGets countLoad ⟨0, []⟩ ["en", "en"] =
      [("en", .ok ("en", 0)), ("en", .ok ("en", 0))] ∧
    runGets countLoad ⟨0, []⟩ ["en", "en"] = ⟨1, [("en", ("en", 0))]⟩ :=
  C9_lookup_by_key_equality countLoad 0 rfl rfl

/-! Domain of the cache over a run of calls (claim C7). -/

/-- One `get` call: a key is in the dict afterwards iff it was before, or
this call was for that key and returned `ok`. -/
theorem mem_dictKeys_get [DecidableEq α] (load : σ → α → (Except ε β) × σ)
    (st : ProcState σ α β) (k2 k : α) :
    k ∈ dictKeys (SpacyMagic.get load st k2).2.spacys ↔
      k ∈ dictKeys st.spacys ∨
        (k2 = k ∧ ∃ v, (SpacyMagic.get load st k2).1 = Except.ok v) := by
  cases hlk : lookupKey st.spacys k2 with
  | some w =>
      rw [get_hit load st hlk]
      constructor
      · exact fun h => Or.inl h
      · rintro (h | ⟨rfl, -⟩)
        · exact h
        · rw [mem_dictKeys_iff_lookupKey, hlk]
          rfl
  | none =>
      rcases hl : load st.loader k2 with ⟨r, s⟩
      cases r with
      | error e =>
          rw [get_miss_error load st hlk hl]
          simp
      | ok w =>
          rw [get_miss_ok load st hlk hl]
          simp only [mem_dictKeys_dictInsert]
          constructor
          · rintro (rfl | h)
            · exact Or.inr ⟨rfl, w, rfl⟩
            · exact Or.inl h
          · rintro (h | ⟨rfl, -⟩)
            · exact Or.inr h
            · exact Or.inl rfl

/-- A key is in the dict after a run of `get` calls iff it was in the dict
before the run or some call of the run succeeded for it. -/
theorem mem_dictKeys_runGets [DecidableEq α] (load : σ → α → (Except ε β) × σ)
    (ks : List α) (st : ProcState σ α β) (k : α) :
    k ∈ dictKeys (runGets load st ks).spacys ↔
      k ∈ dictKeys st.spacys ∨
        ∃ p ∈ traceGets load st ks, p.1 = k ∧ ∃ v, p.2 = Except.ok v := by
  induction ks generalizing st with
  | nil => simp [runGets, traceGets]
  | cons k2 rest ih =>
      rw [runGets, ih, mem_dictKeys_get]
      simp only [traceGets, List.mem_cons]
      constructor
      · rintro ((h | ⟨hk, v, hv⟩) | ⟨p, hp, hpk, v, hv⟩)
        · exact Or.inl h
        · exact Or.inr ⟨(k2, (SpacyMagic.get load st k2).1), Or.inl rfl, hk, v, hv⟩
        · exact Or.inr ⟨p, Or.inr hp, hpk, v, hv⟩
      · rintro (h | ⟨p, hp | hp, hpk, v, hv⟩)
        · exact Or.inl (Or.inl h)
        · subst hp
          exact Or.inl (Or.inr ⟨hpk, v, hv⟩)
        · exact Or.inr ⟨p, hp, hpk, v, hv⟩

/-- C7: the cache starts empty in a fresh process and its domain after any
run of `get` calls is exactly the set of keys for which some call in the
run succeeded — entries appear lazily and only on success. -/
theorem C7_lazy_domain [DecidableEq α] (load : σ → α → (Except ε β) × σ)
    (s0 : σ) (ks : List α) (k : α) :
    (⟨s0, []⟩ : ProcState σ α β).spacys = [] ∧
    (k ∈ dictKeys (runGets load ⟨s0, []⟩ ks).spacys ↔
      ∃ p ∈ traceGets load ⟨s0, []⟩ ks, p.1 = k ∧ ∃ v, p.2 = Except.ok v) := by
  refine ⟨rfl, ?_⟩
  rw [mem_dictKeys_runGets]
  simp [dictKeys]

/-! Every `split_sentences_impl` call goes through `SpacyMagic.get "en"`
(claim C10). -/

/-- The process state returned by `split_sentences_impl` is the state
returned by its inner `SpacyMagic.get` call for `"en"`. -/
theorem split_sentences_state (load : σ → String → (Except ε β) × σ)
    (sents : β → String → List γ) (strOf : γ → String)
    (st : ProcState σ String β) (s : String) :
    (split_sentences_impl load sents strOf st s).2 =
      (SpacyMagic.get load st "en").2 := by
  rcases h : SpacyMagic.get load st "en" with ⟨r, st2⟩
  cases r <;> simp [split_sentences_impl, h]

/-- One `get "en"` call leaves the dict unchanged or writes the key
`"en"`. -/
theorem get_en_state (load : σ → String → (Except ε β) × σ)
    (st : ProcState σ String β) :
    (SpacyMagic.get load st "en").2.spacys = st.spacys ∨
    ∃ v, (SpacyMagic.get load st "en").2.spacys = dictInsert st.spacys "en" v := by
  cases hlk : lookupKey st.spacys "en" with
  | some w => rw [get_hit load st hlk]; exact Or.inl rfl
  | none =>
      rcases hl : load st.loader "en" with ⟨r, s⟩
      cases r with
      | error e => rw [get_miss_error load st hlk hl]; exact Or.inl rfl
      | ok w => rw [get_miss_ok load st hlk hl]; exact Or.inr ⟨w, rfl⟩

/-- The dict of a process running only `split_sentences_impl` is empty or
the single entry for `"en"`; this shape is preserved by every call. -/
theorem splits_inv (load : σ → String → (Except ε β) × σ)
    (sents : β → String → List γ) (strOf : γ → String) (ss : List String) :
    ∀ st : ProcState σ String β,
      (st.spacys = [] ∨ ∃ v, st.spacys = [("en", v)]) →
      ((runSplits load sents strOf st ss).spacys = [] ∨
        ∃ v, (runSplits load sents strOf st ss).spacys = [("en", v)]) := by
  induction ss with
  | nil => exact fun st h => h
  | cons s rest ih =>
      intro st h
      rw [runSplits]
      apply ih
      rw [split_sentences_state]
      rcases get_en_state load st with hg | ⟨v, hg⟩
      · rw [hg]; exact h
      · rw [hg]
        rcases h with h | ⟨w, h⟩ <;> rw [h]
        · exact Or.inr ⟨v, rfl⟩
        · exact Or.inr ⟨v, by simp [dictInsert]⟩

/-- Once `"en"` is cached, further `split_sentences_impl` calls leave the
process state — dict and loader state — completely unchanged. -/
theorem splits_frozen (load : σ → String → (Except ε β) × σ)
    (sents : β → String → List γ) (strOf : γ → String) :
    ∀ (ss : List String) (st : ProcState σ String β) (v : β),
      lookupKey st.spacys "en" = some v → runSplits load sents strOf st ss = st := by
  intro ss
  induction ss with
  | nil => intro st v h; rfl
  | cons s rest ih =>
      intro st v h
      rw [runSplits]
      have hsp : (split_sentences_impl load sents strOf st s).2 = st := by
        rw [split_sentences_state, get_hit load st h]
      rw [hsp]
      exact ih st v h

/-- C10: `split_sentences_impl` obtains its model only via
`SpacyMagic.get` at the fixed key `"en"`: over any sequence of calls from
a fresh process the dict's domain stays within `{"en"}` (the dict is empty
or the single `"en"` entry), and once the `"en"` model is cached no later
call changes the process state, so at most one successful construction
ever occurs. -/
theorem C10_splits_only_en (load : σ → String → (Except ε β) × σ)
    (sents : β → String → List γ) (strOf : γ → String) (s0 : σ) :
    (∀ ss : List String,
      dictKeys (runSplits load sents strOf ⟨s0, []⟩ ss).spacys ⊆ ["en"]) ∧
    (∀ ss : List String,
      (runSplits load sents strOf ⟨s0, []⟩ ss).spacys = [] ∨
      ∃ v, (runSplits load sents strOf ⟨s0, []⟩ ss).spacys = [("en", v)]) ∧
    (∀ (ss : List String) (st : ProcState σ String β) (v : β),
      lookupKey st.spacys "en" = some v → runSplits load sents strOf st ss = st) := by
  have hinv := fun ss =>
    splits_inv load sents strOf ss (⟨s0, []⟩ : ProcState σ String β) (Or.inl rfl)
  refine ⟨?_, hinv, splits_frozen load sents strOf⟩
  intro ss k hk
  rcases hinv ss with h | ⟨v, h⟩ <;> rw [h] at hk
  · simp [dictKeys] at hk
  · simp [dictKeys] at hk
    simp [hk]

/-- Witness for C10: two splitting calls from a fresh process keep the
domain within `{"en"}`, and a call from a state that already caches the
`"en"` model changes nothing. -/
theorem C10_witness :
    dictKeys (runSplits countLoad (fun _ s => [s]) (fun t => t)
      (⟨0, []⟩ : ProcState Nat String (String × Nat)) ["hello", "world"]).spacys
      ⊆ ["en"] ∧
    runSplits countLoad (fun _ s => [s]) (fun t => t)
      (⟨1, [("en", ("en", 0))]⟩ : ProcState Nat String (String × Nat)) ["x"] =
      ⟨1, [("en", ("en", 0))]⟩ := by
  have h := C10_splits_only_en countLoad (fun _ s => [s]) (fun t => t) 0
  exact ⟨h.1 ["hello", "world"],
    h.2.2 ["x"] ⟨1, [("en", ("en", 0))]⟩ ("en", 0) (by simp [lookupKey])⟩

/-! Interleaving model of two threads calling `SpacyMagic.get` for the
same key (claim C3).  The source method has no lock: in CPython the body
runs as several interpreter steps and `spacy.load` performs blocking I/O
during which other threads are scheduled, so the membership test, the
construction, the dict store and the final dict read of one call can
interleave with another thread's.  Each `TPC` value is the point a thread
has reached inside `get`; `threadStep` is one atomic step from there. -/

/-- Program counter of a thread inside `SpacyMagic.get`: about to run the
membership test, about to call the construction routine, about to store
the constructed value, about to read the dict for the `return`, or
finished with a returned instance. -/
inductive TPC (β : Type) where
  | check
  | construct
  | store (v : β)
  | ret
  | done (v : β)
deriving Repr, DecidableEq

/-- Process-global state shared by the threads: the dict
`SpacyMagic._spacys` and the number of construction-routine invocations so
far. -/
structure GState (α β : Type) where
  spacys : List (α × β)
  loadCount : Nat
deriving Repr, DecidableEq

/-- One atomic step of a thread executing `SpacyMagic.get` for key `k`;
the construction routine returns `build k n` on its `n`-th invocation.
`check` is `lang not in cls._spacys`, `construct` is `spacy.load(lang)`,
`store` is `cls._spacys[lang] = v`, `ret` is `return cls._spacys[lang]`
(which cannot miss in any reachable state, so a miss self-loops). -/
def threadStep [DecidableEq α] (build : α → Nat → β) (k : α)
    (g : GState α β) : TPC β → GState α β × TPC β
  | .check => if (lookupKey g.spacys k).isSome then (g, .ret) else (g, .construct)
  | .construct => (⟨g.spacys, g.loadCount + 1⟩, .store (build k g.loadCount))
  | .store v => (⟨dictInsert g.spacys k v, g.loadCount⟩, .ret)
  | .ret =>
      match lookupKey g.spacys k with
      | some v => (g, .done v)
      | none => (g, .ret)
  | .done v => (g, .done v)

/-- Two threads sharing the process-global state. -/
structure SysState (α β : Type) where
  glob : GState α β
  t0 : TPC β
  t1 : TPC β
deriving Repr, DecidableEq

/-- One scheduler step: run one atomic step of thread `t1` when `who` is
`true`, of thread `t0` otherwise. -/
def sysStep [DecidableEq α] (build : α → Nat → β) (k : α)
    (s : SysState α β) (who : Bool) : SysState α β :=
  if who then
    let p := threadStep build k s.glob s.t1
    ⟨p.1, s.t0, p.2⟩
  else
    let p := threadStep build k s.glob s.t0
    ⟨p.1, p.2, s.t1⟩

/-- Run a schedule (a list of thread choices) from a system state. -/
def runSched [DecidableEq α] (build : α → Nat → β) (k : α) :
    SysState α β → List Bool → SysState α β
  | s, [] => s
  | s, w :: ws => runSched build k (sysStep build k s w) ws

/-- Initial system state: empty dict, no constructions yet, both threads
about to call `SpacyMagic.get` for the same uncached key. -/
def initSys (α β : Type) : SysState α β := ⟨⟨[], 0⟩, .check, .check⟩

/-- Counterexample to C3 as stated: under the schedule in which both
threads pass the membership test before either stores, the run completes
(both threads are `done`) with the construction routine invoked twice,
and the two callers hold distinct instances — not exactly one
construction and not the same instance for every caller. -/
theorem C3_counterexample :
    runSched (fun _ n => n) "en" (initSys String Nat)
      [false, true, false, false, false, true, true, true] =
      ⟨⟨[("en", 1)], 2⟩, .done 0, .done 1⟩ ∧
    (2 : Nat) ≠ 1 ∧ (TPC.done 0 : TPC Nat) ≠ TPC.done 1 := by
  refine ⟨?_, by decide, by decide⟩
  rfl

/-- C3 amended: if each `get` call executes its check-construct-store-
return sequence without interleaving (mutual exclusion around the whole
body), then for either order of the two threads the run performs exactly
one construction and both callers receive the identical instance. -/
theorem C3_atomic_schedule [DecidableEq α] (build : α → Nat → β) (k : α) :
    runSched build k (initSys α β) [false, false, false, false, true, true] =
      ⟨⟨[(k, build k 0)], 1⟩, .done (build k 0), .done (build k 0)⟩ ∧
    runSched build k (initSys α β) [true, true, true, true, false, false] =
      ⟨⟨[(k, build k 0)], 1⟩, .done (build k 0), .done (build k 0)⟩ := by
  constructor <;>
    simp [runSched, sysStep, threadStep, initSys, lookupKey, dictInsert]

end StreamingLab
